import Mathlib

/-!
Shallow embedding of the HDHomeRun packet codec (`packet.go`) and proofs
about it.

Bytes are modelled as `Nat` values (a well-formed byte is `< 256`), byte
buffers as `List Nat`, and fallible Go functions as `Except String`
computations whose error strings are the messages of the Go errors
(`io.ErrUnexpectedEOF` is the string "unexpected EOF",
`errInvalidChecksum` is "invalid CRC32 checksum").
-/

set_option maxRecDepth 4096

namespace HDHomeRun

/-! ### CRC32 (IEEE), as used by `hash/crc32.ChecksumIEEE` -/

/-- One round of the bit-by-bit reflected CRC32 algorithm with the IEEE
polynomial `0xedb88320`: shift right one bit, conditionally folding in the
polynomial. -/
def crc32Step (c : Nat) : Nat :=
  if c &&& 1 = 1 then (c >>> 1) ^^^ 0xedb88320 else c >>> 1

/-- Iterate `crc32Step` a given number of times (8 times per input byte). -/
def crc32Bits : Nat → Nat → Nat
  | 0, c => c
  | k + 1, c => crc32Bits k (crc32Step c)

/-- CRC32 (IEEE) of a byte sequence: initial value `0xffffffff`, xor each
byte into the low bits and run 8 rounds, final complement.  This is the
checksum computed by Go's `crc32.ChecksumIEEE`. -/
def crc32 (bs : List Nat) : Nat :=
  (bs.foldl (fun c x => crc32Bits 8 (c ^^^ x)) 0xffffffff) ^^^ 0xffffffff

/-! ### Data model (`Packet`, `Tag`) -/

/-- A Tag is an attribute carried by a Packet: a `uint8` type and an
arbitrary byte payload (`Tag` in `packet.go`). -/
structure Tag where
  type : Nat
  data : List Nat
  deriving DecidableEq, Repr

/-- A Packet is a network packet used to communicate with HDHomeRun
devices: a `uint16` type and zero or more tags (`Packet` in `packet.go`). -/
structure Packet where
  type : Nat
  tags : List Tag
  deriving DecidableEq, Repr

/-- Well-formedness corresponding to the Go field types: `Type` is a
`uint16`, each tag's `Type` is a `uint8` and its `Data` a `[]byte`. -/
def Packet.Wf (p : Packet) : Prop :=
  p.type < 65536 ∧ ∀ t ∈ p.tags, t.type < 256 ∧ ∀ x ∈ t.data, x < 256

instance (p : Packet) : Decidable p.Wf := by
  unfold Packet.Wf; infer_instance

/-! ### Endian helpers (`encoding/binary`) -/

/-- Model of `binary.BigEndian.PutUint16`: the two big-endian bytes of a
16-bit value (`byte(v >> 8)`, `byte(v)`). -/
def putUint16 (v : Nat) : List Nat := [(v >>> 8) % 256, v % 256]

/-- Model of `binary.BigEndian.Uint16`: `uint16(b[1]) | uint16(b[0])<<8`. -/
def uint16 (b0 b1 : Nat) : Nat := b1 ||| (b0 <<< 8)

/-- Model of `binary.LittleEndian.PutUint32`: the four little-endian bytes
of a 32-bit value. -/
def putUint32LE (v : Nat) : List Nat :=
  [v % 256, (v >>> 8) % 256, (v >>> 16) % 256, (v >>> 24) % 256]

/-- Model of `binary.LittleEndian.Uint32`:
`b[0] | b[1]<<8 | b[2]<<16 | b[3]<<24`. -/
def uint32LE (b0 b1 b2 b3 : Nat) : Nat :=
  b0 ||| (b1 <<< 8) ||| (b2 <<< 16) ||| (b3 <<< 24)

/-! ### Length codec (`writeTagLength`, `readTagLength`) -/

/-- Model of `writeTagLength`: write the value `n` into the 2-byte window
`b` using the variable-length tag length scheme.  On success it returns
the number of bytes consumed together with the updated window (the Go
function mutates `b` in place).  Lengths of 128 and above are rejected
with "large tags not implemented". -/
def writeTagLength (n : Nat) (b : List Nat) : Except String (Nat × List Nat) :=
  if b.length ≠ 2 then
    .error "must pass exactly two bytes to writeTagLength"
  else if n < 128 then
    .ok (1, [n % 256, b.getD 1 0])
  else
    .error "large tags not implemented"

/-- Model of `readTagLength`: read a length value from the 2-byte window
`b`, returning the length and the number of bytes consumed.  A first byte
with the high bit set is rejected with "large tags not implemented". -/
def readTagLength (b : List Nat) : Except String (Nat × Nat) :=
  if b.length ≠ 2 then
    .error "must pass exactly two bytes to readTagLength"
  else if b.getD 0 0 &&& 0x80 = 0 then
    .ok (b.getD 0 0, 1)
  else
    .error "large tags not implemented"

/-! ### Encoding (`MarshalBinary`) -/

/-- The size contribution of one tag in `MarshalBinary`'s pre-sizing pass:
1 byte of type, 1 or 2 bytes of length, and the payload. -/
def tagEncLen (t : Tag) : Nat :=
  1 + (if t.data.length > 127 then 2 else 1) + t.data.length

/-- The bytes `MarshalBinary` writes for the tag section: for each tag its
type byte, then the bytes `writeTagLength` placed in the (zero-initialised)
buffer, then the payload.  The Go code writes these fields consecutively
into a pre-allocated buffer; this is the same byte sequence built by
concatenation. -/
def marshalTags : List Tag → Except String (List Nat)
  | [] => .ok []
  | t :: ts =>
    match writeTagLength t.data.length [0, 0] with
    | .error e => .error e
    | .ok (consumed, w) =>
      match marshalTags ts with
      | .error e => .error e
      | .ok rest => .ok (t.type :: (w.take consumed ++ (t.data ++ rest)))

/-- Model of `Packet.MarshalBinary`: header (big-endian type, then the
tag-section byte count truncated to `uint16`), the tag section, and the
little-endian CRC32 of everything before it. -/
def marshalBinary (p : Packet) : Except String (List Nat) :=
  let count := (p.tags.map tagEncLen).sum
  match marshalTags p.tags with
  | .error e => .error e
  | .ok body =>
    let pre := putUint16 p.type ++ putUint16 (count % 65536) ++ body
    .ok (pre ++ putUint32LE (crc32 pre))

/-! ### Decoding (`UnmarshalBinary`) -/

/-- Helper fact about `readTagLength`: a successful read always consumes
exactly one byte (the two-byte branch of the Go function is the
"large tags not implemented" error). -/
theorem readTagLength_consumed {b : List Nat} {tlen consumed : Nat}
    (h : readTagLength b = .ok (tlen, consumed)) : consumed = 1 := by
  unfold readTagLength at h
  split at h
  · exact absurd h (by simp)
  · split at h
    · cases h; rfl
    · exact absurd h (by simp)

/-- Model of the tag-parsing loop of `UnmarshalBinary` (`for i := 4;
i < len(b)-4;`): at cursor `i`, read the type byte `b[i]`, read the tag
length from the window `b[i+1:i+3]`, guard against a misleading tag length
(`len(b[i:])-4 < tlen` in Go `int` arithmetic), copy the payload
`b[j:j+tlen]`, and continue at `j+tlen`. -/
def parseTags (b : List Nat) (i : Nat) (acc : List Tag) :
    Except String (List Tag) :=
  if i < b.length - 4 then
    match h : readTagLength ((b.drop (i + 1)).take 2) with
    | .error e => .error e
    | .ok (tlen, consumed) =>
      if (b.length : Int) - (i + 1 + consumed) - 4 < tlen then
        .error "unexpected EOF"
      else
        parseTags b (i + 1 + consumed + tlen)
          (acc ++ [⟨b.getD i 0, (b.drop (i + 1 + consumed)).take tlen⟩])
  else
    .ok acc
  termination_by b.length - i
  decreasing_by
    have hc := readTagLength_consumed h
    omega

/-- Model of `Packet.UnmarshalBinary`: minimum-length check, checksum
check, header reads, declared-length check, then the tag-parsing loop
(run on a fresh receiver, whose `Tags` field starts out empty).  The Go
function's pure local variables `want`, `got` and `length` are inlined. -/
def unmarshalBinary (b : List Nat) : Except String Packet :=
  if b.length < 8 then
    .error "unexpected EOF"
  else if uint32LE (b.getD (b.length - 4) 0) (b.getD (b.length - 3) 0)
      (b.getD (b.length - 2) 0) (b.getD (b.length - 1) 0) ≠
      crc32 (b.take (b.length - 4)) then
    .error "invalid CRC32 checksum"
  else if uint16 (b.getD 2 0) (b.getD 3 0) ≠ b.length - 8 then
    .error "unexpected EOF"
  else if uint16 (b.getD 2 0) (b.getD 3 0) = 0 then
    .ok ⟨uint16 (b.getD 0 0) (b.getD 1 0), []⟩
  else
    match parseTags b 4 [] with
    | .error e => .error e
    | .ok tags => .ok ⟨uint16 (b.getD 0 0) (b.getD 1 0), tags⟩

/-! ### The successful encoding, as a pure function -/

/-- The bytes `MarshalBinary` writes for one small tag (payload under 128
bytes): type byte, one length byte (`byte(n)` as written by
`writeTagLength`), payload. -/
def tagBytes (t : Tag) : List Nat :=
  t.type :: t.data.length % 256 :: t.data

/-- Byte sequence of the whole tag section for small tags. -/
def tagsBytes (ts : List Tag) : List Nat :=
  (ts.map tagBytes).flatten

/-- The checksummed part of a successful encoding: header then tag
section. -/
def encPre (p : Packet) : List Nat :=
  putUint16 p.type ++ putUint16 ((p.tags.map tagEncLen).sum % 65536) ++
    tagsBytes p.tags

/-- The full successful encoding: checksummed part plus little-endian
CRC32 trailer. -/
def encPacket (p : Packet) : List Nat :=
  encPre p ++ putUint32LE (crc32 (encPre p))

/-! ### Arithmetic lemmas for the endian helpers and the checksum -/

/-- Bitwise or of a low part and a shifted high part is their sum. -/
theorem lor_shiftLeft_eq_add {a : Nat} (b k : Nat) (ha : a < 2 ^ k) :
    a ||| b <<< k = b * 2 ^ k + a := by
  rw [Nat.shiftLeft_eq, Nat.lor_comm, Nat.mul_comm]
  exact (Nat.mul_add_lt_is_or ha b).symm

/-- Reading back the two big-endian bytes of a 16-bit value. -/
theorem uint16_putUint16 {v : Nat} (hv : v < 65536) :
    uint16 ((v >>> 8) % 256) (v % 256) = v := by
  unfold uint16
  rw [lor_shiftLeft_eq_add _ 8 (by omega), Nat.shiftRight_eq_div_pow]
  simp only [Nat.pow_succ, Nat.pow_zero]
  omega

/-- Reading back the four little-endian bytes of a 32-bit value. -/
theorem uint32LE_putUint32LE {v : Nat} (hv : v < 4294967296) :
    uint32LE (v % 256) ((v >>> 8) % 256) ((v >>> 16) % 256)
      ((v >>> 24) % 256) = v := by
  unfold uint32LE
  rw [Nat.shiftRight_eq_div_pow, Nat.shiftRight_eq_div_pow,
    Nat.shiftRight_eq_div_pow,
    lor_shiftLeft_eq_add _ 8 (by omega),
    lor_shiftLeft_eq_add _ 16 (by omega),
    lor_shiftLeft_eq_add _ 24 (by omega)]
  have h8 : (2 : Nat) ^ 8 = 256 := by norm_num
  have h16 : (2 : Nat) ^ 16 = 65536 := by norm_num
  have h24 : (2 : Nat) ^ 24 = 16777216 := by norm_num
  rw [h8, h16, h24]
  omega

/-- One CRC32 round stays within 32 bits. -/
theorem crc32Step_lt {c : Nat} (h : c < 2 ^ 32) : crc32Step c < 2 ^ 32 := by
  unfold crc32Step
  have h1 : c >>> 1 < 2 ^ 32 := by
    rw [Nat.shiftRight_eq_div_pow]
    omega
  split
  · exact Nat.xor_lt_two_pow h1 (by norm_num)
  · exact h1

/-- Iterated CRC32 rounds stay within 32 bits. -/
theorem crc32Bits_lt {c : Nat} (k : Nat) (h : c < 2 ^ 32) :
    crc32Bits k c < 2 ^ 32 := by
  induction k generalizing c with
  | zero => exact h
  | succ k ih => exact ih (crc32Step_lt h)

/-- The CRC32 of a list of 32-bit values is a 32-bit value. -/
theorem crc32_lt {bs : List Nat} (h : ∀ x ∈ bs, x < 2 ^ 32) :
    crc32 bs < 2 ^ 32 := by
  unfold crc32
  have : ∀ (l : List Nat) (c : Nat), (∀ x ∈ l, x < 2 ^ 32) → c < 2 ^ 32 →
      l.foldl (fun c x => crc32Bits 8 (c ^^^ x)) c < 2 ^ 32 := by
    intro l
    induction l with
    | nil => intro c _ hc; exact hc
    | cons y l ih =>
      intro c hl hc
      exact ih _ (fun x hx => hl x (List.mem_cons_of_mem _ hx))
        (crc32Bits_lt 8 (Nat.xor_lt_two_pow hc (hl y (List.mem_cons_self _ _))))
  exact Nat.xor_lt_two_pow (this bs _ h (by norm_num)) (by norm_num)

/-! ### Encoding lemmas -/

/-- When every payload is under 128 bytes, `marshalTags` succeeds and
produces exactly the concatenated small-tag encodings. -/
theorem marshalTags_ok {ts : List Tag} (h : ∀ t ∈ ts, t.data.length < 128) :
    marshalTags ts = .ok (tagsBytes ts) := by
  induction ts with
  | nil => rfl
  | cons t ts ih =>
    have ht : t.data.length < 128 := h t (List.mem_cons_self _ _)
    have hts := ih (fun x hx => h x (List.mem_cons_of_mem _ hx))
    unfold marshalTags
    rw [hts]
    simp [writeTagLength, ht, tagsBytes, tagBytes]

/-- The length of a small tag's encoding is its `tagEncLen`. -/
theorem tagsBytes_length {ts : List Tag} (h : ∀ t ∈ ts, t.data.length < 128) :
    (tagsBytes ts).length = (ts.map tagEncLen).sum := by
  induction ts with
  | nil => rfl
  | cons t ts ih =>
    have ht : t.data.length < 128 := h t (List.mem_cons_self _ _)
    have hts := ih (fun x hx => h x (List.mem_cons_of_mem _ hx))
    simp only [tagsBytes, List.map_cons, List.flatten_cons, List.length_append,
      List.sum_cons]
    rw [← tagsBytes, hts]
    simp only [tagBytes, tagEncLen, List.length_cons]
    have : ¬ t.data.length > 127 := by omega
    rw [if_neg this]
    omega

/-- When every payload is under 128 bytes, `MarshalBinary` succeeds with
the pure encoding `encPacket`. -/
theorem marshalBinary_ok {p : Packet} (h : ∀ t ∈ p.tags, t.data.length < 128) :
    marshalBinary p = .ok (encPacket p) := by
  unfold marshalBinary
  rw [marshalTags_ok h]
  rfl

/-- Every byte of the checksummed part of a well-formed packet's encoding
is a byte value. -/
theorem encPre_bytes_lt {p : Packet} (hwf : p.Wf) :
    ∀ x ∈ encPre p, x < 256 := by
  intro x hx
  unfold encPre at hx
  rcases List.mem_append.1 hx with h1 | h1
  · rcases List.mem_append.1 h1 with h2 | h2 <;>
      · simp only [putUint16, List.mem_cons, List.not_mem_nil, or_false] at h2
        rcases h2 with h | h <;> (subst h; exact Nat.mod_lt _ (by norm_num))
  · unfold tagsBytes at h1
    rcases List.mem_flatten.1 h1 with ⟨s, hs, hxs⟩
    rcases List.mem_map.1 hs with ⟨t, hts, rfl⟩
    rcases hwf.2 t hts with ⟨hty, hdata⟩
    simp only [tagBytes, List.mem_cons] at hxs
    rcases hxs with h | h | h
    · omega
    · omega
    · exact hdata x h

/-- Length of the checksummed part. -/
theorem encPre_length {p : Packet} (h : ∀ t ∈ p.tags, t.data.length < 128) :
    (encPre p).length = 4 + (p.tags.map tagEncLen).sum := by
  unfold encPre putUint16
  simp [tagsBytes_length h]
  omega

/-- Length of the complete encoding. -/
theorem encPacket_length {p : Packet} (h : ∀ t ∈ p.tags, t.data.length < 128) :
    (encPacket p).length = 8 + (p.tags.map tagEncLen).sum := by
  unfold encPacket putUint32LE
  simp [encPre_length h]
  omega

/-! ### Decoding lemmas -/

/-- A value under 128 has bit 7 clear. -/
theorem land128_eq_zero {n : Nat} (h : n < 128) : n &&& 128 = 0 := by
  apply Nat.eq_of_testBit_eq
  intro i
  simp only [Nat.testBit_and, Nat.zero_testBit]
  rcases Nat.lt_or_ge i 7 with hi | hi
  · have : (128 : Nat).testBit i = false := by
      interval_cases i <;> decide
    simp [this]
  · have h128 : (128 : Nat) ≤ 2 ^ i := by
      calc (128 : Nat) = 2 ^ 7 := by norm_num
        _ ≤ 2 ^ i := Nat.pow_le_pow_right (by norm_num) hi
    have : n.testBit i = false := Nat.testBit_lt_two_pow (lt_of_lt_of_le h h128)
    simp [this]

/-- Reading a two-byte window whose first byte is a small length value. -/
theorem readTagLength_pair {n : Nat} (x : Nat) (h : n < 128) :
    readTagLength [n, x] = .ok (n, 1) := by
  unfold readTagLength
  simp [land128_eq_zero h]

/-- Indexing past a prefix lands in the suffix. -/
theorem getD_append_len (l1 l2 : List Nat) (i d : Nat) :
    (l1 ++ l2).getD (l1.length + i) d = l2.getD i d := by
  simp only [List.getD_eq_getElem?_getD,
    List.getElem?_append_right (Nat.le_add_right l1.length i),
    Nat.add_sub_cancel_left]

/-- The tag-parsing loop, started at the end of any prefix `pre` and run
over the encoding of small tags followed by a 4-byte checksum trailer,
consumes exactly the tag section and returns the original tags appended
to the accumulator. -/
theorem parseTags_spec (ts : List Tag) :
    ∀ (pre suf : List Nat) (acc : List Tag),
      (∀ t ∈ ts, t.data.length < 128) → suf.length = 4 →
      parseTags (pre ++ (tagsBytes ts ++ suf)) pre.length acc =
        .ok (acc ++ ts) := by
  induction ts with
  | nil =>
    intro pre suf acc _ hsuf
    rw [parseTags]
    simp [tagsBytes, hsuf]
  | cons t ts ih =>
    intro pre suf acc hsmall hsuf
    have ht : t.data.length < 128 := hsmall t (List.mem_cons_self _ _)
    have hmod : t.data.length % 256 = t.data.length := Nat.mod_eq_of_lt (by omega)
    have hshape : tagsBytes (t :: ts) ++ suf =
        t.type :: t.data.length :: (t.data ++ (tagsBytes ts ++ suf)) := by
      simp [tagsBytes, tagBytes, hmod]
    rw [hshape]
    rw [parseTags]
    have hblen : (pre ++ (t.type :: t.data.length ::
        (t.data ++ (tagsBytes ts ++ suf)))).length =
        pre.length + 2 + t.data.length + (tagsBytes ts).length + 4 := by
      simp [hsuf]
      omega
    have hcond : pre.length < (pre ++ (t.type :: t.data.length ::
        (t.data ++ (tagsBytes ts ++ suf)))).length - 4 := by
      rw [hblen]; omega
    rw [if_pos hcond]
    have hLne : t.data ++ (tagsBytes ts ++ suf) ≠ [] := by
      intro hnil
      have := congrArg List.length hnil
      simp [hsuf] at this
    obtain ⟨x, L', hL⟩ := List.exists_cons_of_ne_nil hLne
    have hdrop1 : (pre ++ (t.type :: t.data.length ::
        (t.data ++ (tagsBytes ts ++ suf)))).drop (pre.length + 1) =
        t.data.length :: (t.data ++ (tagsBytes ts ++ suf)) := by
      have hre : pre ++ (t.type :: t.data.length ::
          (t.data ++ (tagsBytes ts ++ suf))) =
          (pre ++ [t.type]) ++ (t.data.length ::
            (t.data ++ (tagsBytes ts ++ suf))) := by simp
      rw [hre, List.drop_left' (by simp)]
    have hwin : ((pre ++ (t.type :: t.data.length ::
        (t.data ++ (tagsBytes ts ++ suf)))).drop (pre.length + 1)).take 2 =
        [t.data.length, x] := by
      rw [hdrop1, hL]
      rfl
    split
    · next e heq =>
      rw [hwin, readTagLength_pair x ht] at heq
      exact absurd heq (by simp)
    · next tlen consumed heq =>
      rw [hwin, readTagLength_pair x ht] at heq
      cases heq
      split
      · next hlt =>
        rw [hblen] at hlt
        push_cast at hlt
        omega
      next hge =>
      have hty : (pre ++ (t.type :: t.data.length ::
          (t.data ++ (tagsBytes ts ++ suf)))).getD pre.length 0 = t.type := by
        have := getD_append_len pre
          (t.type :: t.data.length :: (t.data ++ (tagsBytes ts ++ suf))) 0 0
        simpa using this
      have h2 : pre.length + 1 + 1 = pre.length + 2 := by omega
      have hdrop2 : (pre ++ (t.type :: t.data.length ::
          (t.data ++ (tagsBytes ts ++ suf)))).drop (pre.length + 2) =
          t.data ++ (tagsBytes ts ++ suf) := by
        have hre : pre ++ (t.type :: t.data.length ::
            (t.data ++ (tagsBytes ts ++ suf))) =
            (pre ++ [t.type, t.data.length]) ++
              (t.data ++ (tagsBytes ts ++ suf)) := by simp
        rw [hre, List.drop_left' (by simp)]
      have hdata : ((pre ++ (t.type :: t.data.length ::
          (t.data ++ (tagsBytes ts ++ suf)))).drop
            (pre.length + 1 + 1)).take t.data.length = t.data := by
        rw [h2, hdrop2, List.take_left' rfl]
      rw [hty, hdata, h2]
      have hb2 : pre ++ (t.type :: t.data.length ::
          (t.data ++ (tagsBytes ts ++ suf))) =
          (pre ++ (t.type :: t.data.length :: t.data)) ++
            (tagsBytes ts ++ suf) := by simp
      have hplen : pre.length + 2 + t.data.length =
          (pre ++ (t.type :: t.data.length :: t.data)).length := by
        simp only [List.length_append, List.length_cons]
        omega
      have heta : (⟨t.type, t.data⟩ : Tag) = t := rfl
      rw [hb2, hplen, heta]
      have hrec := ih (pre ++ (t.type :: t.data.length :: t.data)) suf
        (acc ++ [t]) (fun u hu => hsmall u (List.mem_cons_of_mem _ hu)) hsuf
      rw [hrec]
      simp

/-- Binding a successful `Except` computation just applies the
continuation. -/
theorem except_bind_ok {ε α β : Type} (a : α) (f : α → Except ε β) :
    (Except.ok (ε := ε) a).bind f = f a := rfl

/-- The tag-section byte count is zero only for the empty tag list. -/
theorem sum_tagEncLen_eq_zero {ts : List Tag}
    (h : (ts.map tagEncLen).sum = 0) : ts = [] := by
  cases ts with
  | nil => rfl
  | cons t ts =>
    exfalso
    simp only [List.map_cons, List.sum_cons, tagEncLen] at h
    split at h <;> omega

/-- Decoding the pure encoding of a well-formed packet with small payloads
and a tag section of fewer than 65536 bytes gives back the packet. -/
theorem unmarshal_encPacket {p : Packet} (hwf : p.Wf)
    (hsmall : ∀ t ∈ p.tags, t.data.length < 128)
    (hcount : (p.tags.map tagEncLen).sum < 65536) :
    unmarshalBinary (encPacket p) = .ok p := by
  have hprelen : (encPre p).length = 4 + (p.tags.map tagEncLen).sum :=
    encPre_length hsmall
  have hcrclt : crc32 (encPre p) < 2 ^ 32 :=
    crc32_lt (fun x hx => lt_trans (encPre_bytes_lt hwf x hx) (by norm_num))
  have happ : encPacket p =
      encPre p ++ putUint32LE (crc32 (encPre p)) := rfl
  rw [happ]
  unfold unmarshalBinary
  have hBlen : (encPre p ++ putUint32LE (crc32 (encPre p))).length =
      (encPre p).length + 4 := by
    simp [putUint32LE]
  have hnot8 : ¬ (encPre p ++ putUint32LE (crc32 (encPre p))).length < 8 := by
    rw [hBlen]; omega
  rw [if_neg hnot8]
  have e0 : (encPre p ++ putUint32LE (crc32 (encPre p))).length - 4 =
      (encPre p).length := by rw [hBlen]; omega
  have e1 : (encPre p ++ putUint32LE (crc32 (encPre p))).length - 3 =
      (encPre p).length + 1 := by rw [hBlen]; omega
  have e2 : (encPre p ++ putUint32LE (crc32 (encPre p))).length - 2 =
      (encPre p).length + 2 := by rw [hBlen]; omega
  have e3 : (encPre p ++ putUint32LE (crc32 (encPre p))).length - 1 =
      (encPre p).length + 3 := by rw [hBlen]; omega
  rw [e0, e1, e2, e3]
  have hg0 : (encPre p ++ putUint32LE (crc32 (encPre p))).getD
      ((encPre p).length) 0 = crc32 (encPre p) % 256 := by
    have := getD_append_len (encPre p)
      (putUint32LE (crc32 (encPre p))) 0 0
    simpa [putUint32LE] using this
  have hg1 : (encPre p ++ putUint32LE (crc32 (encPre p))).getD
      ((encPre p).length + 1) 0 = (crc32 (encPre p) >>> 8) % 256 := by
    have := getD_append_len (encPre p)
      (putUint32LE (crc32 (encPre p))) 1 0
    simpa [putUint32LE] using this
  have hg2 : (encPre p ++ putUint32LE (crc32 (encPre p))).getD
      ((encPre p).length + 2) 0 = (crc32 (encPre p) >>> 16) % 256 := by
    have := getD_append_len (encPre p)
      (putUint32LE (crc32 (encPre p))) 2 0
    simpa [putUint32LE] using this
  have hg3 : (encPre p ++ putUint32LE (crc32 (encPre p))).getD
      ((encPre p).length + 3) 0 = (crc32 (encPre p) >>> 24) % 256 := by
    have := getD_append_len (encPre p)
      (putUint32LE (crc32 (encPre p))) 3 0
    simpa [putUint32LE] using this
  rw [hg0, hg1, hg2, hg3, List.take_left,
    if_neg (not_ne_iff.2 (uint32LE_putUint32LE hcrclt))]
  have hh0 : (encPre p ++ putUint32LE (crc32 (encPre p))).getD 0 0 =
      (p.type >>> 8) % 256 := rfl
  have hh1 : (encPre p ++ putUint32LE (crc32 (encPre p))).getD 1 0 =
      p.type % 256 := rfl
  have hh2 : (encPre p ++ putUint32LE (crc32 (encPre p))).getD 2 0 =
      (((p.tags.map tagEncLen).sum % 65536) >>> 8) % 256 := rfl
  have hh3 : (encPre p ++ putUint32LE (crc32 (encPre p))).getD 3 0 =
      ((p.tags.map tagEncLen).sum % 65536) % 256 := rfl
  have hfield : uint16
      ((encPre p ++ putUint32LE (crc32 (encPre p))).getD 2 0)
      ((encPre p ++ putUint32LE (crc32 (encPre p))).getD 3 0) =
      (p.tags.map tagEncLen).sum := by
    rw [hh2, hh3, uint16_putUint16 (Nat.mod_lt _ (by norm_num)),
      Nat.mod_eq_of_lt hcount]
  have htype : uint16
      ((encPre p ++ putUint32LE (crc32 (encPre p))).getD 0 0)
      ((encPre p ++ putUint32LE (crc32 (encPre p))).getD 1 0) = p.type := by
    rw [hh0, hh1, uint16_putUint16 hwf.1]
  have e8 : (encPre p ++ putUint32LE (crc32 (encPre p))).length - 8 =
      (p.tags.map tagEncLen).sum := by
    rw [hBlen, hprelen]; omega
  rw [hfield, htype, e8, if_neg (not_ne_iff.2 rfl)]
  by_cases hzero : (p.tags.map tagEncLen).sum = 0
  · rw [if_pos hzero]
    have htags : p.tags = [] := sum_tagEncLen_eq_zero hzero
    rw [show ([] : List Tag) = p.tags from htags.symm]
  · rw [if_neg hzero]
    have hpre4 : encPre p ++ putUint32LE (crc32 (encPre p)) =
        (putUint16 p.type ++ putUint16 ((p.tags.map tagEncLen).sum % 65536)) ++
          (tagsBytes p.tags ++ putUint32LE (crc32 (encPre p))) := by
      simp [encPre, List.append_assoc]
    have h4len : (4 : Nat) =
        (putUint16 p.type ++
          putUint16 ((p.tags.map tagEncLen).sum % 65536)).length := by
      simp [putUint16]
    have hparse : parseTags
        (encPre p ++ putUint32LE (crc32 (encPre p))) 4 [] = .ok p.tags := by
      rw [hpre4, h4len, parseTags_spec p.tags _ _ [] hsmall (by simp [putUint32LE])]
      simp
    rw [hparse]

/-- When the tag-section byte count does not survive the `uint16`
truncation (it is 65536 or more), the declared length can no longer match
`len(b) - 8` and decoding the encoder's own output fails. -/
theorem unmarshal_encPacket_overflow {p : Packet} (hwf : p.Wf)
    (hsmall : ∀ t ∈ p.tags, t.data.length < 128)
    (hcount : 65536 ≤ (p.tags.map tagEncLen).sum) :
    unmarshalBinary (encPacket p) = .error "unexpected EOF" := by
  have hprelen : (encPre p).length = 4 + (p.tags.map tagEncLen).sum :=
    encPre_length hsmall
  have hcrclt : crc32 (encPre p) < 2 ^ 32 :=
    crc32_lt (fun x hx => lt_trans (encPre_bytes_lt hwf x hx) (by norm_num))
  have happ : encPacket p =
      encPre p ++ putUint32LE (crc32 (encPre p)) := rfl
  rw [happ]
  unfold unmarshalBinary
  have hBlen : (encPre p ++ putUint32LE (crc32 (encPre p))).length =
      (encPre p).length + 4 := by
    simp [putUint32LE]
  have hnot8 : ¬ (encPre p ++ putUint32LE (crc32 (encPre p))).length < 8 := by
    rw [hBlen]; omega
  rw [if_neg hnot8]
  have e0 : (encPre p ++ putUint32LE (crc32 (encPre p))).length - 4 =
      (encPre p).length := by rw [hBlen]; omega
  have e1 : (encPre p ++ putUint32LE (crc32 (encPre p))).length - 3 =
      (encPre p).length + 1 := by rw [hBlen]; omega
  have e2 : (encPre p ++ putUint32LE (crc32 (encPre p))).length - 2 =
      (encPre p).length + 2 := by rw [hBlen]; omega
  have e3 : (encPre p ++ putUint32LE (crc32 (encPre p))).length - 1 =
      (encPre p).length + 3 := by rw [hBlen]; omega
  rw [e0, e1, e2, e3]
  have hg0 : (encPre p ++ putUint32LE (crc32 (encPre p))).getD
      ((encPre p).length) 0 = crc32 (encPre p) % 256 := by
    have := getD_append_len (encPre p)
      (putUint32LE (crc32 (encPre p))) 0 0
    simpa [putUint32LE] using this
  have hg1 : (encPre p ++ putUint32LE (crc32 (encPre p))).getD
      ((encPre p).length + 1) 0 = (crc32 (encPre p) >>> 8) % 256 := by
    have := getD_append_len (encPre p)
      (putUint32LE (crc32 (encPre p))) 1 0
    simpa [putUint32LE] using this
  have hg2 : (encPre p ++ putUint32LE (crc32 (encPre p))).getD
      ((encPre p).length + 2) 0 = (crc32 (encPre p) >>> 16) % 256 := by
    have := getD_append_len (encPre p)
      (putUint32LE (crc32 (encPre p))) 2 0
    simpa [putUint32LE] using this
  have hg3 : (encPre p ++ putUint32LE (crc32 (encPre p))).getD
      ((encPre p).length + 3) 0 = (crc32 (encPre p) >>> 24) % 256 := by
    have := getD_append_len (encPre p)
      (putUint32LE (crc32 (encPre p))) 3 0
    simpa [putUint32LE] using this
  rw [hg0, hg1, hg2, hg3, List.take_left,
    if_neg (not_ne_iff.2 (uint32LE_putUint32LE hcrclt))]
  have hh2 : (encPre p ++ putUint32LE (crc32 (encPre p))).getD 2 0 =
      (((p.tags.map tagEncLen).sum % 65536) >>> 8) % 256 := rfl
  have hh3 : (encPre p ++ putUint32LE (crc32 (encPre p))).getD 3 0 =
      ((p.tags.map tagEncLen).sum % 65536) % 256 := rfl
  have hfield : uint16
      ((encPre p ++ putUint32LE (crc32 (encPre p))).getD 2 0)
      ((encPre p ++ putUint32LE (crc32 (encPre p))).getD 3 0) =
      (p.tags.map tagEncLen).sum % 65536 := by
    rw [hh2, hh3, uint16_putUint16 (Nat.mod_lt _ (by norm_num))]
  have e8 : (encPre p ++ putUint32LE (crc32 (encPre p))).length - 8 =
      (p.tags.map tagEncLen).sum := by
    rw [hBlen, hprelen]; omega
  rw [hfield, e8]
  have hne : (p.tags.map tagEncLen).sum % 65536 ≠
      (p.tags.map tagEncLen).sum := by
    have : (p.tags.map tagEncLen).sum % 65536 < 65536 :=
      Nat.mod_lt _ (by norm_num)
    omega
  rw [if_pos hne]

/-! ### Bounds-checked decoder (for the safety claim) -/

/-- Variant of `parseTags` with every memory access guarded by an explicit
bounds check, the way a memory-unsafe target would have to: the cursor
invariant `4 ≤ i ≤ len(b) - 4` at each iteration, the 2-byte length window
`b[i+1:i+3]` inside the buffer, and the payload slice ending at least 4
bytes before the end of the buffer.  The Go code performs these accesses
without checks; the checks never firing is the no-out-of-bounds claim. -/
def parseTagsChecked (b : List Nat) (i : Nat) (acc : List Tag) :
    Except String (List Tag) :=
  if i < b.length - 4 then
    if ¬ (4 ≤ i ∧ i + 4 ≤ b.length ∧ i + 3 ≤ b.length) then
      .error "out of bounds"
    else
      match h : readTagLength ((b.drop (i + 1)).take 2) with
      | .error e => .error e
      | .ok (tlen, consumed) =>
        if (b.length : Int) - (i + 1 + consumed) - 4 < tlen then
          .error "unexpected EOF"
        else if ¬ (i + 1 + consumed + tlen + 4 ≤ b.length) then
          .error "out of bounds"
        else
          parseTagsChecked b (i + 1 + consumed + tlen)
            (acc ++ [⟨b.getD i 0, (b.drop (i + 1 + consumed)).take tlen⟩])
  else
    .ok acc
  termination_by b.length - i
  decreasing_by
    have hc := readTagLength_consumed h
    omega

/-- Variant of `unmarshalBinary` that runs the bounds-checked parsing
loop. -/
def unmarshalBinaryChecked (b : List Nat) : Except String Packet :=
  if b.length < 8 then
    .error "unexpected EOF"
  else if uint32LE (b.getD (b.length - 4) 0) (b.getD (b.length - 3) 0)
      (b.getD (b.length - 2) 0) (b.getD (b.length - 1) 0) ≠
      crc32 (b.take (b.length - 4)) then
    .error "invalid CRC32 checksum"
  else if uint16 (b.getD 2 0) (b.getD 3 0) ≠ b.length - 8 then
    .error "unexpected EOF"
  else if uint16 (b.getD 2 0) (b.getD 3 0) = 0 then
    .ok ⟨uint16 (b.getD 0 0) (b.getD 1 0), []⟩
  else
    match parseTagsChecked b 4 [] with
    | .error e => .error e
    | .ok tags => .ok ⟨uint16 (b.getD 0 0) (b.getD 1 0), tags⟩

/-- Started at any cursor at least 4, the bounds checks of
`parseTagsChecked` never fire: it behaves exactly like `parseTags`. -/
theorem parseTagsChecked_eq (b : List Nat) : ∀ (i : Nat) (acc : List Tag),
    4 ≤ i → parseTagsChecked b i acc = parseTags b i acc := by
  suffices H : ∀ (k i : Nat) (acc : List Tag), b.length - i ≤ k → 4 ≤ i →
      parseTagsChecked b i acc = parseTags b i acc by
    intro i acc h4
    exact H (b.length - i) i acc le_rfl h4
  intro k
  induction k with
  | zero =>
    intro i acc hk h4
    rw [parseTagsChecked, parseTags]
    have hnc : ¬ i < b.length - 4 := by omega
    rw [if_neg hnc, if_neg hnc]
  | succ k ih =>
    intro i acc hk h4
    rw [parseTagsChecked, parseTags]
    by_cases hc : i < b.length - 4
    · rw [if_pos hc, if_pos hc,
        if_neg (not_not_intro ⟨h4, by omega, by omega⟩)]
      split
      · next e h1 => rfl
      · next tlen consumed h1 =>
        split
        · next h2 => rfl
        · next h2 =>
          have hcons := readTagLength_consumed h1
          have hbound : i + 1 + consumed + tlen + 4 ≤ b.length := by
            omega
          rw [if_neg (not_not_intro hbound)]
          exact ih (i + 1 + consumed + tlen) _ (by omega) (by omega)
    · rw [if_neg hc, if_neg hc]

/-! ### Claim theorems -/

instance {ε α : Type} [DecidableEq ε] [DecidableEq α] :
    DecidableEq (Except ε α) := fun a b =>
  match a, b with
  | .ok x, .ok y =>
    if h : x = y then .isTrue (by rw [h]) else .isFalse (by simp [h])
  | .error x, .error y =>
    if h : x = y then .isTrue (by rw [h]) else .isFalse (by simp [h])
  | .ok _, .error _ => .isFalse (by simp)
  | .error _, .ok _ => .isFalse (by simp)

/-- C1 (amended): for every well-formed packet whose payloads are all
under 128 bytes and whose encoded tag section is under 65536 bytes (so
the 16-bit length field is not truncated), encoding succeeds and decoding
the result gives back exactly the packet: same type, same tag sequence in
order. -/
theorem marshal_unmarshal_roundtrip (p : Packet) (hwf : p.Wf)
    (hsmall : ∀ t ∈ p.tags, t.data.length < 128)
    (hcount : (p.tags.map tagEncLen).sum < 65536) :
    (marshalBinary p).bind unmarshalBinary = .ok p := by
  rw [marshalBinary_ok hsmall]
  show unmarshalBinary (encPacket p) = .ok p
  exact unmarshal_encPacket hwf hsmall hcount

/-- Witness for C1 at the one-tag example packet. -/
theorem marshal_unmarshal_roundtrip_witness :
    (marshalBinary ⟨1, [⟨2, [0xff]⟩]⟩).bind unmarshalBinary =
      .ok ⟨1, [⟨2, [0xff]⟩]⟩ :=
  marshal_unmarshal_roundtrip ⟨1, [⟨2, [0xff]⟩]⟩ (by decide) (by decide)
    (by decide)

/-- Counterexample to C1 as stated: a packet of 32768 empty tags has
every payload under 128 bytes, yet its encoded tag section is 65536 bytes,
the 16-bit length field wraps to 0, and decoding the encoder's own output
fails instead of returning the packet. -/
theorem roundtrip_counterexample :
    (marshalBinary ⟨0, List.replicate 32768 ⟨0, []⟩⟩).bind unmarshalBinary ≠
      .ok ⟨0, List.replicate 32768 ⟨0, []⟩⟩ := by
  have hsmall : ∀ t ∈ List.replicate 32768 (⟨0, []⟩ : Tag),
      t.data.length < 128 := by
    intro t ht
    rw [List.eq_of_mem_replicate ht]
    decide
  have hwf : Packet.Wf ⟨0, List.replicate 32768 ⟨0, []⟩⟩ := by
    refine ⟨by decide, ?_⟩
    intro t ht
    rw [List.eq_of_mem_replicate ht]
    exact ⟨by decide, by intro x hx; cases hx⟩
  have h2 : tagEncLen ⟨0, []⟩ = 2 := rfl
  have hsum : ((List.replicate 32768 (⟨0, []⟩ : Tag)).map tagEncLen).sum =
      65536 := by
    rw [List.map_replicate, h2, List.sum_replicate, smul_eq_mul]
  rw [marshalBinary_ok hsmall, except_bind_ok,
    unmarshal_encPacket_overflow hwf hsmall (le_of_eq hsum.symm)]
  exact fun h => Except.noConfusion h

/-- C10: decoding is total and never reads out of bounds.  The decoder
with an explicit bounds check in front of every buffer access (cursor
invariant `4 ≤ i ≤ len(b) - 4`, length window inside the buffer, payload
slice ending before the checksum trailer) behaves identically to the
plain decoder on every input: no check ever fires.  Termination itself is
witnessed by the definitions, whose recursion is justified by the strict
cursor progress of each loop iteration. -/
theorem unmarshalBinary_no_oob (b : List Nat) :
    unmarshalBinaryChecked b = unmarshalBinary b := by
  unfold unmarshalBinaryChecked unmarshalBinary
  rw [parseTagsChecked_eq b 4 [] (by omega)]

/-- C2: the two-byte branch of the length codec is not implemented in the
code.  At the claimed boundary value 128, `writeTagLength` does not write
`[0x80, 0x01]` with 2 bytes consumed but fails with "large tags not
implemented", and `readTagLength` fails in the same way on a window whose
first byte has the high bit set. -/
theorem writeTagLength_128_fails :
    writeTagLength 128 [0, 0] = .error "large tags not implemented" ∧
      readTagLength [0x80, 0x01] = .error "large tags not implemented" := by
  decide

/-- C3: `MarshalBinary` fails on a payload length of 255, far below the
32767 bound the claim states; this is exactly the "large tags" case of
the repository's own test table, which expects success. -/
theorem marshalBinary_large_tag_fails :
    marshalBinary ⟨3, [⟨4, List.replicate 255 255⟩]⟩ =
      .error "large tags not implemented" := by
  decide

/-- C4: the three deterministic encoding examples, byte for byte. -/
theorem marshalBinary_examples :
    marshalBinary ⟨0, []⟩ =
      .ok [0x00, 0x00, 0x00, 0x00, 0x1c, 0xdf, 0x44, 0x21] ∧
    marshalBinary ⟨1, [⟨2, [0xff]⟩]⟩ =
      .ok [0x00, 0x01, 0x00, 0x03, 0x02, 0x01, 0xff, 0x97, 0xa9, 0x18, 0x73] ∧
    marshalBinary ⟨2, [⟨3, [0xff]⟩, ⟨4, [0xaa, 0xbb, 0xcc]⟩]⟩ =
      .ok [0x00, 0x02, 0x00, 0x08, 0x03, 0x01, 0xff, 0x04, 0x03, 0xaa, 0xbb,
        0xcc, 0x5d, 0x52, 0x64, 0xf2] := by
  decide

/-- C6: every buffer of fewer than 8 bytes is rejected with the
truncated-input error, regardless of its contents. -/
theorem unmarshalBinary_min_length (b : List Nat) (h : b.length < 8) :
    unmarshalBinary b = .error "unexpected EOF" := by
  unfold unmarshalBinary
  simp [h]

/-- Witness for C6 at the empty buffer. -/
theorem unmarshalBinary_min_length_witness :
    unmarshalBinary [] = .error "unexpected EOF" :=
  unmarshalBinary_min_length [] (by decide)

/-- C5: on any buffer of at least 8 bytes whose recomputed CRC32 differs
from the trailing little-endian word, `UnmarshalBinary` fails with the
invalid-checksum error; no length-derived check is consulted first. -/
theorem unmarshalBinary_checksum_priority (b : List Nat) (h8 : 8 ≤ b.length)
    (hcrc : uint32LE (b.getD (b.length - 4) 0) (b.getD (b.length - 3) 0)
      (b.getD (b.length - 2) 0) (b.getD (b.length - 1) 0) ≠
      crc32 (b.take (b.length - 4))) :
    unmarshalBinary b = .error "invalid CRC32 checksum" := by
  unfold unmarshalBinary
  have h : ¬ b.length < 8 := by omega
  simp only [List.getD_eq_getElem?_getD] at hcrc
  simp [h, hcrc]

/-- Witness for C5: a buffer whose checksum is wrong and whose declared
length field (value 5) is also inconsistent with `len(b) - 8 = 0`; the
checksum verdict wins. -/
theorem unmarshalBinary_checksum_priority_witness :
    unmarshalBinary [0, 0, 0, 5, 0, 0, 0, 0] = .error "invalid CRC32 checksum" :=
  unmarshalBinary_checksum_priority [0, 0, 0, 5, 0, 0, 0, 0] (by decide)
    (by decide)

/-- C7: on any buffer of at least 8 bytes whose checksum is valid but whose
declared attribute-section length differs from `len(b) - 8`,
`UnmarshalBinary` fails with the truncated-input error. -/
theorem unmarshalBinary_length_mismatch (b : List Nat) (h8 : 8 ≤ b.length)
    (hcrc : uint32LE (b.getD (b.length - 4) 0) (b.getD (b.length - 3) 0)
      (b.getD (b.length - 2) 0) (b.getD (b.length - 1) 0) =
      crc32 (b.take (b.length - 4)))
    (hlen : uint16 (b.getD 2 0) (b.getD 3 0) ≠ b.length - 8) :
    unmarshalBinary b = .error "unexpected EOF" := by
  unfold unmarshalBinary
  have h : ¬ b.length < 8 := by omega
  simp only [List.getD_eq_getElem?_getD] at hcrc hlen
  simp [h, hcrc, hlen]

/-- Witness for C7: a valid CRC32 over `[0,0,0,1]` but a declared length
of 1 on an 8-byte buffer (so `len(b) - 8 = 0`). -/
theorem unmarshalBinary_length_mismatch_witness :
    unmarshalBinary [0, 0, 0, 1, 0x8a, 0xef, 0x43, 0x56] =
      .error "unexpected EOF" :=
  unmarshalBinary_length_mismatch [0, 0, 0, 1, 0x8a, 0xef, 0x43, 0x56]
    (by decide) (by decide) (by decide)

/-- C8: a buffer that passes the minimum-length, checksum and
length-consistency checks and declares a zero-length attribute section
decodes immediately to a packet with the empty tag sequence. -/
theorem unmarshalBinary_empty_section (b : List Nat) (h8 : 8 ≤ b.length)
    (hcrc : uint32LE (b.getD (b.length - 4) 0) (b.getD (b.length - 3) 0)
      (b.getD (b.length - 2) 0) (b.getD (b.length - 1) 0) =
      crc32 (b.take (b.length - 4)))
    (hlen : uint16 (b.getD 2 0) (b.getD 3 0) = b.length - 8)
    (hzero : uint16 (b.getD 2 0) (b.getD 3 0) = 0) :
    unmarshalBinary b = .ok ⟨uint16 (b.getD 0 0) (b.getD 1 0), []⟩ := by
  unfold unmarshalBinary
  have h : ¬ b.length < 8 := by omega
  have hz : b.length - 8 = 0 := hlen ▸ hzero
  simp only [List.getD_eq_getElem?_getD] at hcrc hlen hzero
  simp [h, hcrc, hlen, hzero, hz]

/-- Witness for C8 at the encoding of the empty packet. -/
theorem unmarshalBinary_empty_section_witness :
    unmarshalBinary [0, 0, 0, 0, 0x1c, 0xdf, 0x44, 0x21] =
      .ok ⟨uint16 0 0, []⟩ :=
  unmarshalBinary_empty_section [0, 0, 0, 0, 0x1c, 0xdf, 0x44, 0x21]
    (by decide) (by decide) (by decide) (by decide)

/-- C9: a window that is not exactly 2 bytes makes both length-codec
functions fail with their fixed buffer-size errors, for every length value
and independent of the window's contents. -/
theorem tagLength_window_contract (n : Nat) (b : List Nat)
    (h : b.length ≠ 2) :
    writeTagLength n b = .error "must pass exactly two bytes to writeTagLength" ∧
      readTagLength b = .error "must pass exactly two bytes to readTagLength" := by
  unfold writeTagLength readTagLength
  simp [h]

/-- Witness for C9 at the empty window and length 0. -/
theorem tagLength_window_contract_witness :
    writeTagLength 0 [] = .error "must pass exactly two bytes to writeTagLength" ∧
      readTagLength [] = .error "must pass exactly two bytes to readTagLength" :=
  tagLength_window_contract 0 [] (by decide)

end HDHomeRun
